import Mathlib

/-!
Shallow embedding of src/typing_train.py (wetery/judu), covering the
sentence segmenter, the blank selector and the interactive session
state machine, together with theorems settling the frozen claims.

Strings are modelled as lists of characters.  The Python lower method
is modelled per character with Char.toLower, which agrees with Python
on the ASCII letters and CJK ideographs that occur in cores and in the
claims.  Python sets of strings are modelled as lists with exact
membership, mirroring the exact equality tests of the source.
-/

namespace Judu

/-- Characters matched by the regex class for CJK ideographs, 4e00 to 9fff. -/
def isCJK (c : Char) : Bool := 0x4e00 ≤ c.toNat && c.toNat ≤ 0x9fff

/-- Characters matched by the regex class for Latin letters a-zA-Z. -/
def isLatinLetter (c : Char) : Bool := ('a' ≤ c && c ≤ 'z') || ('A' ≤ c && c ≤ 'Z')

/-- A character that can start or extend a token core. -/
def isCoreChar (c : Char) : Bool := isCJK c || isLatinLetter c

/-- Characters matched by the suffix class of the tokenizer regex.
The class excludes the CJK range, the Latin letters, and also a
literal caret, because the source pattern contains a second caret
inside the character class. -/
def isSuffixChar (c : Char) : Bool := !isCoreChar c && c != '^'

/-- One scanning pass of re.findall with the token pattern of
process_sentence, with explicit fuel for structural recursion.  At a
core character it takes the maximal homogeneous run as the core, then
the maximal run of suffix characters as the suffix; any other
character is skipped, as findall does with unmatched input. -/
def tokenizeF : Nat → List Char → List (List Char × List Char)
  | 0, _ => []
  | _ + 1, [] => []
  | fuel + 1, c :: rest =>
    if isCJK c then
      (c :: rest.takeWhile isCJK,
        (rest.dropWhile isCJK).takeWhile isSuffixChar)
        :: tokenizeF fuel ((rest.dropWhile isCJK).dropWhile isSuffixChar)
    else if isLatinLetter c then
      (c :: rest.takeWhile isLatinLetter,
        (rest.dropWhile isLatinLetter).takeWhile isSuffixChar)
        :: tokenizeF fuel ((rest.dropWhile isLatinLetter).dropWhile isSuffixChar)
    else
      tokenizeF fuel rest

/-- The token list of a sentence, as produced by the findall call of
process_sentence.  Each recursive step of the scan consumes at least
one character, so the length of the input is enough fuel. -/
def tokenize (s : List Char) : List (List Char × List Char) := tokenizeF s.length s

/-- Concatenation of core and suffix over all tokens, in order. -/
def joinToks (ts : List (List Char × List Char)) : List Char :=
  ts.foldr (fun t acc => t.1 ++ (t.2 ++ acc)) []

/-- Model of the Python lower method, applied per character. -/
def pyLower (s : List Char) : List Char := s.map Char.toLower

/-- The per token test shared by both tiers: the lowered core is
absent from the high frequency set and from the practiced set.  The
set entries are compared verbatim, as in the source. -/
def tier2Test (core : List Char) (high practiced : List (List Char)) : Bool :=
  !(high.contains (pyLower core)) && !(practiced.contains (pyLower core))

/-- First priority candidates of process_sentence.  The source guards
the computation with Python truthiness of all three sets, so an empty
set makes the list empty. -/
def primaryCandidates (tokens : List (List Char × List Char))
    (four high practiced : List (List Char)) : List Nat :=
  if four ≠ [] ∧ high ≠ [] ∧ practiced ≠ [] then
    (List.range tokens.length).filter (fun i =>
      let core := (tokens.getD i ([], [])).1
      four.contains core && (four.map pyLower).contains (pyLower core)
        && tier2Test core high practiced)
  else []

/-- Second priority candidates of process_sentence, guarded by
truthiness of the high frequency and practiced sets. -/
def secondaryCandidates (tokens : List (List Char × List Char))
    (high practiced : List (List Char)) : List Nat :=
  if high ≠ [] ∧ practiced ≠ [] then
    (List.range tokens.length).filter (fun i =>
      tier2Test (tokens.getD i ([], [])).1 high practiced)
  else []

/-- The pool the random choice is made from: primary candidates if any,
else secondary candidates if any, else all token indices.  The source
draws with random.choice on the first two and random.randint on the
last; both select an element of the pool. -/
def chosenPool (tokens : List (List Char × List Char))
    (four high practiced : List (List Char)) : List Nat :=
  let p := primaryCandidates tokens four high practiced
  if p ≠ [] then p
  else
    let s := secondaryCandidates tokens high practiced
    if s ≠ [] then s
    else List.range tokens.length

/-- The placeholder written in place of the blanked core. -/
def placeholder : List Char := [ '_', '_', '_', '_', '_' ]

/-- The joined modified sentence of process_sentence: every token is
core plus suffix, except the chosen index whose core is replaced by
the placeholder while its suffix is kept. -/
def blankJoin (tokens : List (List Char × List Char)) (chosen : Nat) : List Char :=
  (tokens.enum.map (fun p =>
    if p.1 = chosen then placeholder ++ p.2.2 else p.2.1 ++ p.2.2)).foldr
    (fun a b => a ++ b) []

/-- The randomness of the source is injected as a choice function from
the candidate pool to an index.  A faithful random draw always returns
an element of a nonempty pool. -/
def ValidPick (pick : List Nat → Nat) : Prop :=
  ∀ l : List Nat, l ≠ [] → pick l ∈ l

/-- A concrete valid choice function, used to exhibit reachable draws. -/
def pickHead (l : List Nat) : Nat := l.headD 0

/-- Embedding of process_sentence: returns none when the sentence has
no token, otherwise the blanked sentence and the original core of the
chosen token. -/
def process_sentence (pick : List Nat → Nat) (sentence : List Char)
    (four high practiced : List (List Char)) : Option (List Char × List Char) :=
  let tokens := tokenize sentence
  if tokens.isEmpty then none
  else
    let chosen := pick (chosenPool tokens four high practiced)
    some (blankJoin tokens chosen, (tokens.getD chosen ([], [])).1)

/-- True when the sentence is empty or begins with a core character. -/
def headCore (s : List Char) : Bool :=
  match s with
  | [] => true
  | c :: _ => isCoreChar c

theorem validPick_head : ValidPick pickHead := by
  intro l hl
  cases l with
  | nil => exact absurd rfl hl
  | cons a t => simp [pickHead]

theorem length_dropWhile_le (p : Char → Bool) (l : List Char) :
    (l.dropWhile p).length ≤ l.length :=
  (List.dropWhile_sublist p).length_le

theorem head_dropWhile_false (p : Char → Bool) :
    ∀ (l : List Char) (c : Char) (cs : List Char),
      l.dropWhile p = c :: cs → p c = false := by
  intro l
  induction l with
  | nil => intro c cs h; simp [List.dropWhile] at h
  | cons a t ih =>
    intro c cs h
    by_cases ha : p a
    · rw [List.dropWhile_cons_of_pos ha] at h
      exact ih c cs h
    · rw [List.dropWhile_cons_of_neg ha] at h
      cases h
      exact Bool.of_not_eq_true ha

theorem mem_of_mem_dropWhile (p : Char → Bool) (l : List Char) (c : Char)
    (h : c ∈ l.dropWhile p) : c ∈ l :=
  (List.dropWhile_sublist p).mem h

theorem joinToks_tokenizeF :
    ∀ (fuel : Nat) (s : List Char), s.length ≤ fuel → '^' ∉ s →
      headCore s = true → joinToks (tokenizeF fuel s) = s := by
  intro fuel
  induction fuel with
  | zero =>
    intro s hlen _ _
    have hs : s = [] := List.length_eq_zero.mp (Nat.le_zero.mp hlen)
    subst hs
    rfl
  | succ fuel ih =>
    intro s hlen hcaret hhead
    cases s with
    | nil => rfl
    | cons c rest =>
      have hcore : isCoreChar c = true := by simpa [headCore] using hhead
      have hlen1 : rest.length ≤ fuel := Nat.succ_le_succ_iff.mp (by simpa using hlen)
      have hstep : ∀ (q : Char → Bool),
          joinToks (tokenizeF fuel ((rest.dropWhile q).dropWhile isSuffixChar))
            = (rest.dropWhile q).dropWhile isSuffixChar := by
        intro q
        apply ih
        · exact le_trans (length_dropWhile_le _ _)
            (le_trans (length_dropWhile_le _ _) hlen1)
        · intro hmem
          exact hcaret (List.mem_cons_of_mem c
            (mem_of_mem_dropWhile _ _ _ (mem_of_mem_dropWhile _ _ _ hmem)))
        · cases hrest2 : (rest.dropWhile q).dropWhile isSuffixChar with
          | nil => rfl
          | cons d ds =>
            have hd : isSuffixChar d = false :=
              head_dropWhile_false isSuffixChar _ d ds hrest2
            have hdne : d ≠ '^' := by
              intro he
              apply hcaret
              refine List.mem_cons_of_mem c ?_
              refine mem_of_mem_dropWhile q rest '^' ?_
              refine mem_of_mem_dropWhile isSuffixChar _ '^' ?_
              rw [hrest2, ← he]
              exact List.mem_cons_self d ds
            have : isCoreChar d = true := by
              by_contra hno
              have h1 : (!isCoreChar d) = true := by
                simp [Bool.not_eq_true] at hno ⊢
                exact hno
              have h2 : (d != '^') = true := bne_iff_ne.mpr hdne
              simp [isSuffixChar, h1, h2] at hd
            simpa [headCore] using this
      by_cases hcjk : isCJK c = true
      · have heq : tokenizeF (fuel + 1) (c :: rest)
            = (c :: rest.takeWhile isCJK,
                (rest.dropWhile isCJK).takeWhile isSuffixChar)
              :: tokenizeF fuel ((rest.dropWhile isCJK).dropWhile isSuffixChar) := by
          simp [tokenizeF, hcjk]
        rw [heq]
        show (c :: rest.takeWhile isCJK)
            ++ ((rest.dropWhile isCJK).takeWhile isSuffixChar
              ++ joinToks (tokenizeF fuel ((rest.dropWhile isCJK).dropWhile isSuffixChar)))
            = c :: rest
        rw [hstep isCJK, List.takeWhile_append_dropWhile, List.cons_append,
          List.takeWhile_append_dropWhile]
      · have hlat : isLatinLetter c = true := by
          cases hl : isLatinLetter c
          · simp [isCoreChar, hcjk, hl] at hcore
          · rfl
        have heq : tokenizeF (fuel + 1) (c :: rest)
            = (c :: rest.takeWhile isLatinLetter,
                (rest.dropWhile isLatinLetter).takeWhile isSuffixChar)
              :: tokenizeF fuel ((rest.dropWhile isLatinLetter).dropWhile isSuffixChar) := by
          simp [tokenizeF, hcjk, hlat]
        rw [heq]
        show (c :: rest.takeWhile isLatinLetter)
            ++ ((rest.dropWhile isLatinLetter).takeWhile isSuffixChar
              ++ joinToks (tokenizeF fuel ((rest.dropWhile isLatinLetter).dropWhile isSuffixChar)))
            = c :: rest
        rw [hstep isLatinLetter, List.takeWhile_append_dropWhile, List.cons_append,
          List.takeWhile_append_dropWhile]

/-- Sentence terminating punctuation of split_sentences, ASCII and CJK. -/
def isTermChar (c : Char) : Bool :=
  c = '.' || c = '!' || c = '?' || c = '。' || c = '！' || c = '？'

/-- Whitespace as matched by the regex class backslash-s. -/
def isSpacePy (c : Char) : Bool :=
  c = ' ' || c = '\t' || c = '\n' || c = '\r' || c = '\x0b' || c = '\x0c'

/-- Prepends a character to the part currently being built, the head of
the part list. -/
def consHead (c : Char) : List (List Char) → List (List Char)
  | [] => [[c]]
  | p :: ps => (c :: p) :: ps

/-- One scanning pass of re.split with the segmentation pattern: a
lookbehind for a terminator, a greedy whitespace run, and a lookahead
for one character that is not a terminator.  The boolean argument
records whether the previous character is a terminator.  When the
whole whitespace run is followed by a terminator or by the end of the
input, the greedy run backtracks by one character, because whitespace
itself satisfies the lookahead class; an empty separator match splits
and then bumps the scanner past one character, as re.split does. -/
def splitF : Nat → List Char → Bool → List (List Char)
  | 0, _, _ => [[]]
  | _ + 1, [], _ => [[]]
  | fuel + 1, c :: rest, false => consHead c (splitF fuel rest (isTermChar c))
  | fuel + 1, c :: rest, true =>
    match (c :: rest).takeWhile isSpacePy, (c :: rest).dropWhile isSpacePy with
    | ws, d :: tl2 =>
      if isTermChar d then
        match ws with
        | [] => consHead c (splitF fuel rest (isTermChar c))
        | [w] => [] :: consHead w (splitF fuel (d :: tl2) false)
        | w1 :: w2 :: wrest =>
          [] :: splitF fuel ((w1 :: w2 :: wrest).getLast (by simp) :: d :: tl2) false
      else
        match ws with
        | [] => [] :: consHead d (splitF fuel tl2 false)
        | _ :: _ => [] :: splitF fuel (d :: tl2) false
    | ws, [] =>
      match ws with
      | [] => consHead c (splitF fuel rest (isTermChar c))
      | [w] => [] :: consHead w (splitF fuel [] false)
      | w1 :: w2 :: wrest =>
        [] :: splitF fuel [(w1 :: w2 :: wrest).getLast (by simp)] false

/-- The sentence list produced by split_sentences on a text.  Each
scanning step consumes at least one character, so the input length is
enough fuel. -/
def split_sentences (s : List Char) : List (List Char) := splitF s.length s false

/-- The sentence list kept by read_practice_text: entries of length at
most one are filtered out. -/
def filteredSentences (s : List Char) : List (List Char) :=
  (split_sentences s).filter (fun t => 1 < t.length)

/-- Modelled from the spec: a segmenter that splits exactly at
positions preceded by a terminator and followed, after consuming any
intervening whitespace, by a character that is neither a terminator
nor whitespace.  It differs from the source in refusing to split when
the character after the whitespace run is another terminator or the
input ends there. -/
def splitSpecF : Nat → List Char → Bool → List (List Char)
  | 0, _, _ => [[]]
  | _ + 1, [], _ => [[]]
  | fuel + 1, c :: rest, false => consHead c (splitSpecF fuel rest (isTermChar c))
  | fuel + 1, c :: rest, true =>
    match (c :: rest).takeWhile isSpacePy, (c :: rest).dropWhile isSpacePy with
    | ws, d :: tl2 =>
      if isTermChar d then consHead c (splitSpecF fuel rest (isTermChar c))
      else
        match ws with
        | [] => [] :: consHead d (splitSpecF fuel tl2 false)
        | _ :: _ => [] :: splitSpecF fuel (d :: tl2) false
    | _, [] => consHead c (splitSpecF fuel rest (isTermChar c))

/-- Modelled from the spec: the sentence list under the split rule as
the claim words it. -/
def splitSentencesSpec (s : List Char) : List (List Char) := splitSpecF s.length s false

/-- Interleaves parts with the separators dropped between them. -/
def joinSeps : List (List Char) → List (List Char) → List Char
  | [p], [] => p
  | p :: ps, w :: wss => p ++ (w ++ joinSeps ps wss)
  | _, _ => []

theorem consHead_ne_nil (c : Char) (P : List (List Char)) : consHead c P ≠ [] := by
  cases P <;> simp [consHead]

theorem consHead_length (c : Char) (P : List (List Char)) (h : P ≠ []) :
    (consHead c P).length = P.length := by
  cases P with
  | nil => exact absurd rfl h
  | cons p ps => rfl

theorem joinSeps_consHead (c : Char) (P seps : List (List Char))
    (h : seps.length + 1 = P.length) :
    joinSeps (consHead c P) seps = c :: joinSeps P seps := by
  cases P with
  | nil => simp at h
  | cons p ps =>
    cases seps with
    | nil =>
      cases ps with
      | nil => simp [consHead, joinSeps]
      | cons q qs => simp at h
    | cons w wss => simp [consHead, joinSeps]


theorem splitF_nil (fuel : Nat) (prev : Bool) : splitF fuel [] prev = [[]] := by
  cases fuel <;> rfl

theorem splitF_ne_nil : ∀ (fuel : Nat) (rem : List Char) (prev : Bool),
    splitF fuel rem prev ≠ [] := by
  intro fuel rem prev
  cases fuel with
  | zero => simp [splitF]
  | succ f =>
    cases rem with
    | nil => simp [splitF]
    | cons c rest =>
      cases prev with
      | false => exact consHead_ne_nil _ _
      | true =>
        simp only [splitF]
        rcases (c :: rest).dropWhile isSpacePy with _ | ⟨d, tl2⟩ <;>
          rcases (c :: rest).takeWhile isSpacePy with _ | ⟨w1, _ | ⟨w2, wrest⟩⟩ <;>
          simp [consHead_ne_nil] <;> split <;> simp [consHead_ne_nil]

theorem joinSeps_cons_cons (p w : List Char) (ps wss : List (List Char))
    (hlen : wss.length + 1 = ps.length) :
    joinSeps (p :: ps) (w :: wss) = p ++ (w ++ joinSeps ps wss) := by
  cases ps with
  | nil => simp at hlen
  | cons q qs => rfl

theorem dropLast_getLast_cons (L : List Char) (hL : L ≠ []) (t : List Char) :
    L.dropLast ++ (L.getLast hL :: t) = L ++ t := by
  rw [← List.singleton_append, ← List.append_assoc, List.dropLast_append_getLast hL]

theorem reconstruct_consHead (f : Nat) (c : Char) (rest : List Char) (b : Bool)
    (hex : ∃ seps : List (List Char),
      seps.length + 1 = (splitF f rest b).length ∧
      (∀ w ∈ seps, w.all isSpacePy = true) ∧
      joinSeps (splitF f rest b) seps = rest) :
    ∃ seps : List (List Char),
      seps.length + 1 = (consHead c (splitF f rest b)).length ∧
      (∀ w ∈ seps, w.all isSpacePy = true) ∧
      joinSeps (consHead c (splitF f rest b)) seps = c :: rest := by
  obtain ⟨seps, h1, h2, h3⟩ := hex
  refine ⟨seps, ?_, h2, ?_⟩
  · rw [consHead_length _ _ (splitF_ne_nil f rest b), ← h1]
  · rw [joinSeps_consHead _ _ _ h1, h3]

theorem splitF_reconstruct : ∀ (fuel : Nat) (rem : List Char) (prev : Bool),
    rem.length ≤ fuel →
    ∃ seps : List (List Char),
      seps.length + 1 = (splitF fuel rem prev).length ∧
      (∀ w ∈ seps, w.all isSpacePy = true) ∧
      joinSeps (splitF fuel rem prev) seps = rem := by
  intro fuel
  induction fuel with
  | zero =>
    intro rem prev h
    have hr : rem = [] := List.length_eq_zero.mp (Nat.le_zero.mp h)
    subst hr
    exact ⟨[], by simp [splitF], by simp, by simp [splitF, joinSeps]⟩
  | succ f ih =>
    intro rem prev h
    cases rem with
    | nil => exact ⟨[], by simp [splitF], by simp, by simp [splitF, joinSeps]⟩
    | cons c rest =>
      have hlen : rest.length ≤ f := by
        have := Nat.succ_le_succ_iff.mp (by simpa using h)
        simpa using this
      cases prev with
      | false =>
        simp only [splitF]
        exact reconstruct_consHead f c rest (isTermChar c) (ih rest (isTermChar c) hlen)
      | true =>
        have hrel := List.takeWhile_append_dropWhile isSpacePy (c :: rest)
        simp only [splitF]
        rcases htl : (c :: rest).dropWhile isSpacePy with _ | ⟨d, tl2⟩
        · rcases hws : (c :: rest).takeWhile isSpacePy with _ | ⟨w1, _ | ⟨w2, wrest⟩⟩
          · rw [hws, htl] at hrel; simp at hrel
          · -- remainder is a single whitespace character
            rw [hws, htl] at hrel
            simp only [List.singleton_append] at hrel
            show ∃ seps : List (List Char),
              seps.length + 1 = ([] :: consHead w1 (splitF f [] false)).length ∧
              (∀ w ∈ seps, w.all isSpacePy = true) ∧
              joinSeps ([] :: consHead w1 (splitF f [] false)) seps = c :: rest
            rw [splitF_nil]
            refine ⟨[[]], rfl, by simp, ?_⟩
            simp only [consHead, joinSeps]
            simpa using hrel
          · -- remainder is two or more whitespace characters
            rw [hws, htl] at hrel
            simp only [List.append_nil] at hrel
            show ∃ seps : List (List Char),
              seps.length + 1
                = ([] :: splitF f [(w1 :: w2 :: wrest).getLast (by simp)] false).length ∧
              (∀ w ∈ seps, w.all isSpacePy = true) ∧
              joinSeps ([] :: splitF f [(w1 :: w2 :: wrest).getLast (by simp)] false) seps
                = c :: rest
            have hf : ([(w1 :: w2 :: wrest).getLast (by simp)] : List Char).length ≤ f := by
              have : rest = w2 :: wrest := by
                have := hrel
                injection this with _ h2
                exact h2.symm
              subst this
              simp only [List.length_singleton]
              simp at hlen
              omega
            obtain ⟨seps2, h1, h2, h3⟩ := ih [(w1 :: w2 :: wrest).getLast (by simp)] false hf
            refine ⟨(w1 :: w2 :: wrest).dropLast :: seps2, ?_, ?_, ?_⟩
            · simp only [List.length_cons]
              omega
            · intro w hw
              rcases List.mem_cons.mp hw with hw | hw
              · subst hw
                rw [List.all_eq_true]
                intro x hx
                have hx2 : x ∈ (w1 :: w2 :: wrest) := (List.dropLast_sublist _).mem hx
                rw [← hws] at hx2
                exact List.mem_takeWhile_imp hx2
              · exact h2 w hw
            · rw [joinSeps_cons_cons _ _ _ _ h1, h3, List.nil_append,
                List.dropLast_append_getLast (by simp : (w1 :: w2 :: wrest) ≠ [])]
              exact hrel
        · by_cases hd : isTermChar d = true
          · rcases hws : (c :: rest).takeWhile isSpacePy with _ | ⟨w1, _ | ⟨w2, wrest⟩⟩
            · -- no whitespace and next is a terminator: no split here
              rw [hws, htl] at hrel
              show ∃ seps : List (List Char),
                seps.length + 1 = (if isTermChar d = true
                    then consHead c (splitF f rest (isTermChar c))
                    else [] :: consHead d (splitF f tl2 false)).length ∧
                (∀ w ∈ seps, w.all isSpacePy = true) ∧
                joinSeps (if isTermChar d = true
                    then consHead c (splitF f rest (isTermChar c))
                    else [] :: consHead d (splitF f tl2 false)) seps = c :: rest
              rw [if_pos hd]
              exact reconstruct_consHead f c rest (isTermChar c) (ih rest (isTermChar c) hlen)
            · -- one whitespace then a terminator: empty separator split
              rw [hws, htl] at hrel
              simp only [List.singleton_append] at hrel
              obtain ⟨hc, hrest⟩ : w1 = c ∧ d :: tl2 = rest := by
                injection hrel with ha hb
                exact ⟨ha, hb⟩
              show ∃ seps : List (List Char),
                seps.length + 1 = (if isTermChar d = true
                    then [] :: consHead w1 (splitF f (d :: tl2) false)
                    else [] :: splitF f (d :: tl2) false).length ∧
                (∀ w ∈ seps, w.all isSpacePy = true) ∧
                joinSeps (if isTermChar d = true
                    then [] :: consHead w1 (splitF f (d :: tl2) false)
                    else [] :: splitF f (d :: tl2) false) seps = c :: rest
              rw [if_pos hd]
              have hf : (d :: tl2).length ≤ f := by rw [hrest]; exact hlen
              obtain ⟨seps2, h1, h2, h3⟩ := ih (d :: tl2) false hf
              refine ⟨[] :: seps2, ?_, ?_, ?_⟩
              · simp only [List.length_cons,
                  consHead_length _ _ (splitF_ne_nil f (d :: tl2) false)]
                omega
              · intro w hw
                rcases List.mem_cons.mp hw with hw | hw
                · subst hw; rfl
                · exact h2 w hw
              · rw [joinSeps_cons_cons _ _ _ _
                  (by rw [consHead_length _ _ (splitF_ne_nil f (d :: tl2) false)]; exact h1)]
                rw [joinSeps_consHead _ _ _ h1, h3, List.nil_append, List.nil_append,
                  hc, hrest]
            · -- two or more whitespace then a terminator: backtracked split
              rw [hws, htl] at hrel
              show ∃ seps : List (List Char),
                seps.length + 1 = (if isTermChar d = true
                    then [] :: splitF f ((w1 :: w2 :: wrest).getLast (by simp) :: d :: tl2) false
                    else [] :: splitF f (d :: tl2) false).length ∧
                (∀ w ∈ seps, w.all isSpacePy = true) ∧
                joinSeps (if isTermChar d = true
                    then [] :: splitF f ((w1 :: w2 :: wrest).getLast (by simp) :: d :: tl2) false
                    else [] :: splitF f (d :: tl2) false) seps = c :: rest
              rw [if_pos hd]
              have hf : ((w1 :: w2 :: wrest).getLast (by simp) :: d :: tl2).length ≤ f := by
                have := congrArg List.length hrel
                simp [List.length_append] at this
                simp only [List.length_cons]
                omega
              obtain ⟨seps2, h1, h2, h3⟩ := ih _ false hf
              refine ⟨(w1 :: w2 :: wrest).dropLast :: seps2, ?_, ?_, ?_⟩
              · simp only [List.length_cons]
                omega
              · intro w hw
                rcases List.mem_cons.mp hw with hw | hw
                · subst hw
                  rw [List.all_eq_true]
                  intro x hx
                  have hx2 : x ∈ (w1 :: w2 :: wrest) := (List.dropLast_sublist _).mem hx
                  rw [← hws] at hx2
                  exact List.mem_takeWhile_imp hx2
                · exact h2 w hw
              · rw [joinSeps_cons_cons _ _ _ _ h1, h3, List.nil_append,
                  dropLast_getLast_cons (w1 :: w2 :: wrest) (by simp) (d :: tl2)]
                exact hrel
          · rcases hws : (c :: rest).takeWhile isSpacePy with _ | ⟨w1, wsrest⟩
            · -- no whitespace, next not a terminator: empty separator split
              rw [hws, htl] at hrel
              simp only [List.nil_append] at hrel
              obtain ⟨hc, hrest⟩ : d = c ∧ tl2 = rest := by
                injection hrel with ha hb
                exact ⟨ha, hb⟩
              show ∃ seps : List (List Char),
                seps.length + 1 = (if isTermChar d = true
                    then consHead c (splitF f rest (isTermChar c))
                    else [] :: consHead d (splitF f tl2 false)).length ∧
                (∀ w ∈ seps, w.all isSpacePy = true) ∧
                joinSeps (if isTermChar d = true
                    then consHead c (splitF f rest (isTermChar c))
                    else [] :: consHead d (splitF f tl2 false)) seps = c :: rest
              rw [if_neg hd]
              have hf : tl2.length ≤ f := by rw [hrest]; exact hlen
              obtain ⟨seps2, h1, h2, h3⟩ := ih tl2 false hf
              refine ⟨[] :: seps2, ?_, ?_, ?_⟩
              · simp only [List.length_cons,
                  consHead_length _ _ (splitF_ne_nil f tl2 false)]
                omega
              · intro w hw
                rcases List.mem_cons.mp hw with hw | hw
                · subst hw; rfl
                · exact h2 w hw
              · rw [joinSeps_cons_cons _ _ _ _
                  (by rw [consHead_length _ _ (splitF_ne_nil f tl2 false)]; exact h1)]
                rw [joinSeps_consHead _ _ _ h1, h3, List.nil_append, List.nil_append,
                  hc, hrest]
            · -- a whitespace run then a non terminator: split consuming the run
              rw [hws, htl] at hrel
              show ∃ seps : List (List Char),
                seps.length + 1 = (if isTermChar d = true
                    then (match w1 :: wsrest with
                      | [] => consHead c (splitF f rest (isTermChar c))
                      | [w] => [] :: consHead w (splitF f (d :: tl2) false)
                      | w1 :: w2 :: wrest =>
                        [] :: splitF f ((w1 :: w2 :: wrest).getLast (by simp) :: d :: tl2) false)
                    else [] :: splitF f (d :: tl2) false).length ∧
                (∀ w ∈ seps, w.all isSpacePy = true) ∧
                joinSeps (if isTermChar d = true
                    then (match w1 :: wsrest with
                      | [] => consHead c (splitF f rest (isTermChar c))
                      | [w] => [] :: consHead w (splitF f (d :: tl2) false)
                      | w1 :: w2 :: wrest =>
                        [] :: splitF f ((w1 :: w2 :: wrest).getLast (by simp) :: d :: tl2) false)
                    else [] :: splitF f (d :: tl2) false) seps = c :: rest
              rw [if_neg hd]
              have hf : (d :: tl2).length ≤ f := by
                have := congrArg List.length hrel
                simp [List.length_append] at this
                simp only [List.length_cons]
                omega
              obtain ⟨seps2, h1, h2, h3⟩ := ih (d :: tl2) false hf
              refine ⟨(w1 :: wsrest) :: seps2, ?_, ?_, ?_⟩
              · simp only [List.length_cons]
                omega
              · intro w hw
                rcases List.mem_cons.mp hw with hw | hw
                · subst hw
                  rw [List.all_eq_true]
                  intro x hx
                  rw [← hws] at hx
                  exact List.mem_takeWhile_imp hx
                · exact h2 w hw
              · rw [joinSeps_cons_cons _ _ _ _ h1, h3, List.nil_append]
                exact hrel

/-- Model of the Python strip method: surrounding whitespace removed. -/
def stripPy (s : List Char) : List Char :=
  ((s.dropWhile isSpacePy).reverse.dropWhile isSpacePy).reverse

/-- Value of a run of decimal digits. -/
def digitsToNat (ds : List Char) : Nat :=
  ds.foldl (fun a c => a * 10 + (c.toNat - 48)) 0

/-- Model of the Python int constructor on a string: surrounding
whitespace is ignored, an optional sign precedes a nonempty digit
run, anything else raises ValueError, modelled as none.  Underscore
digit grouping is not modelled; no claim uses it. -/
def parseIntPy (s : List Char) : Option Int :=
  match stripPy s with
  | '-' :: ds =>
    if ds ≠ [] ∧ ds.all Char.isDigit then some (-(digitsToNat ds : Int)) else none
  | '+' :: ds =>
    if ds ≠ [] ∧ ds.all Char.isDigit then some (digitsToNat ds) else none
  | ds =>
    if ds ≠ [] ∧ ds.all Char.isDigit then some (digitsToNat ds) else none

/-- The session state of main: the current sentence index, the memory
of the previous blanked sentence and answer, the in memory practiced
word set, the persisted cursor, and the append only practiced word
log.  The file backed cursor and log are modelled abstractly, as the
spec treats file primitives as external collaborators. -/
structure Sess where
  idx : Nat
  prevS : Option (List Char)
  prevA : Option (List Char)
  practiced : List (List Char)
  saved : Nat
  log : List (List Char)
deriving DecidableEq, Repr

/-- What loadCursor returns after the persisted writes so far. -/
def loadCursor (st : Sess) : Nat := st.saved

/-- The observable outcome of one iteration of the inner input loop:
each constructor corresponds to one branch of the source, which are
distinguishable by their output and control flow. -/
inductive Outcome where
  | quit
  | prevShown
  | jumped (t : Nat)
  | jumpErr
  | correct
  | wrong
deriving DecidableEq, Repr

/-- One iteration of the inner input loop of main, in state
AwaitingInput: the raw line is stripped, the lower cased form is
checked against the commands q, p and g in order, then the stripped
line is compared with the answer; jumpRaw is the line read by the g
command for the target number. -/
def step (numS : Nat) (blanked answer raw jumpRaw : List Char) (st : Sess) :
    Sess × Outcome :=
  let u := stripPy raw
  if pyLower u = [ 'q' ] then
    ({ st with saved := st.idx }, Outcome.quit)
  else if pyLower u = [ 'p' ] then
    (st, Outcome.prevShown)
  else if pyLower u = [ 'g' ] then
    match parseIntPy jumpRaw with
    | some n =>
      if 0 ≤ n - 1 ∧ n - 1 < (numS : Int) then
        ({ st with idx := (n - 1).toNat }, Outcome.jumped (n - 1).toNat)
      else (st, Outcome.jumpErr)
    | none => (st, Outcome.jumpErr)
  else if u = answer then
    ({ st with
        idx := st.idx + 1,
        prevS := some blanked,
        prevA := some answer,
        practiced := answer :: st.practiced,
        saved := st.idx + 1,
        log := st.log ++ [ answer ] }, Outcome.correct)
  else (st, Outcome.wrong)

/-- Session states reachable by the program over a fixed sentence list
of length numS, across any number of runs.  A fresh installation has
cursor zero, missing progress and practiced files; the outer loop of
main only reaches the input loop while the index is below numS; a skip
advances the index without persisting when process_sentence returns
none; a restart begins a new run at the persisted cursor with the
practiced words reloaded from the log.  The input transition permits
any blanked form, answer and input lines, an over approximation of the
states the program itself reaches. -/
inductive Reach (numS : Nat) : Sess → Prop where
  | init : Reach numS ⟨0, none, none, [], 0, []⟩
  | skip (st : Sess) : Reach numS st → st.idx < numS →
      Reach numS { st with idx := st.idx + 1 }
  | input (st : Sess) (blanked answer raw jumpRaw : List Char) :
      Reach numS st → st.idx < numS →
      Reach numS (step numS blanked answer raw jumpRaw st).1
  | restart (st : Sess) : Reach numS st →
      Reach numS { st with
        idx := st.saved,
        prevS := none,
        prevA := none,
        practiced := st.log }

theorem chosenPool_subset_range (tokens : List (List Char × List Char))
    (four high practiced : List (List Char)) (i : Nat)
    (h : i ∈ chosenPool tokens four high practiced) : i < tokens.length := by
  simp only [chosenPool] at h
  split at h
  · unfold primaryCandidates at h
    split at h
    · exact List.mem_range.mp (List.mem_filter.mp h).1
    · simp at h
  · split at h
    · unfold secondaryCandidates at h
      split at h
      · exact List.mem_range.mp (List.mem_filter.mp h).1
      · simp at h
    · exact List.mem_range.mp h

theorem chosenPool_ne_nil (tokens : List (List Char × List Char))
    (four high practiced : List (List Char)) (h : tokens ≠ []) :
    chosenPool tokens four high practiced ≠ [] := by
  simp only [chosenPool]
  split
  · assumption
  · split
    · assumption
    · simp [List.range_eq_nil]
      intro hl
      exact h hl

/-- C1, counterexample: with vocabularyWords containing apple, the
high frequency set containing the, and an EMPTY practiced set, the
truthiness guards leave both tiers empty, so the pool is every token
index and a valid draw can blank the word The, contrary to the claim
that only apple can be chosen. -/
theorem claim1_counterexample :
    process_sentence pickHead "The apple is red.".data [ "apple".data ]
        [ "the".data ] [] = some ("_____ apple is red.".data, "The".data) ∧
    chosenPool (tokenize "The apple is red.".data) [ "apple".data ]
        [ "the".data ] [] = [0, 1, 2, 3] := by
  exact ⟨by decide, by decide⟩

/-- C1, amended: when the practiced set is also non empty, for example
holding only the unrelated word zzz, the apple token is the unique
tier one candidate and every valid draw chooses it, never the, is or
red. -/
theorem claim1_tier_priority (pick : List Nat → Nat) (hv : ValidPick pick) :
    process_sentence pick "The apple is red.".data [ "apple".data ]
        [ "the".data ] [ "zzz".data ]
      = some ("The _____ is red.".data, "apple".data) := by
  have hp : chosenPool (tokenize "The apple is red.".data) [ "apple".data ]
      [ "the".data ] [ "zzz".data ] = [1] := by decide
  have h1 : pick [1] = 1 := List.mem_singleton.mp (hv [1] (by simp))
  simp only [process_sentence]
  rw [hp, h1]
  decide

theorem claim1_tier_priority_witness :
    process_sentence pickHead "The apple is red.".data [ "apple".data ]
        [ "the".data ] [ "zzz".data ]
      = some ("The _____ is red.".data, "apple".data) :=
  claim1_tier_priority pickHead validPick_head

/-- C2, counterexample: a leading character that is neither a Latin
letter nor a CJK ideograph is dropped by findall, so concatenating
core plus suffix over the tokens does not reproduce the sentence. -/
theorem claim2_counterexample :
    joinToks (tokenize ".a".data) ≠ ".a".data := by
  decide

/-- C2, amended: tokenization is lossless for every sentence that
contains no caret and whose first character, if any, is a Latin letter
or a CJK ideograph; the suffix runs absorb every other character. -/
theorem claim2_lossless (s : List Char) (hc : '^' ∉ s) (hh : headCore s = true) :
    joinToks (tokenize s) = s :=
  joinToks_tokenizeF s.length s le_rfl hc hh

theorem claim2_lossless_witness :
    '^' ∉ "The apple is red.".data ∧ headCore "The apple is red.".data = true ∧
    joinToks (tokenize "The apple is red.".data) = "The apple is red.".data :=
  ⟨by decide, by decide,
    claim2_lossless "The apple is red.".data (by decide) (by decide)⟩

/-- C3, counterexample: the source lowers only the token core, not the
stored entries, so the entry The does not exclude the token the from
tier two candidacy, while the entry the does: exclusion is not as if
the cases matched. -/
theorem claim3_counterexample :
    secondaryCandidates (tokenize "the cat.".data) [ "The".data ] [ "xx".data ]
        = [0, 1] ∧
    secondaryCandidates (tokenize "the cat.".data) [ "the".data ] [ "xx".data ]
        = [1] := by
  exact ⟨by decide, by decide⟩

/-- C3, amended: the exclusion tests lower case only the token side:
two cores equal up to letter case receive the same tier two verdict
everywhere, and an entry that is literally the lowered core always
excludes; an entry differing from the lowered core, for instance by
containing an upper case letter, excludes nothing. -/
theorem claim3_case_handling :
    (∀ (core core2 : List Char) (high practiced : List (List Char)),
      pyLower core = pyLower core2 →
      tier2Test core high practiced = tier2Test core2 high practiced) ∧
    (∀ (core w : List Char) (high practiced : List (List Char)),
      w ∈ high → pyLower core = w → tier2Test core high practiced = false) := by
  constructor
  · intro core core2 high prac h
    unfold tier2Test
    rw [h]
  · intro core w high prac hw h
    unfold tier2Test
    rw [h]
    have hc : high.contains w = true := List.elem_iff.mpr hw
    rw [hc]
    rfl

theorem claim3_case_handling_witness :
    tier2Test "ThE".data [ "the".data ] [ "xx".data ] = false :=
  claim3_case_handling.2 "ThE".data "the".data [ "the".data ] [ "xx".data ]
    (by simp) (by decide)

/-- C4: on any sentence with at least one token and any valid draw,
process_sentence returns the concatenation of all tokens in order with
exactly the chosen token core replaced by the five character
placeholder, every suffix kept, paired with the original core of the
chosen token as the answer. -/
theorem claim4_blanking (pick : List Nat → Nat) (s : List Char)
    (four high practiced : List (List Char)) (hv : ValidPick pick)
    (hne : tokenize s ≠ []) :
    ∃ j : Nat, j < (tokenize s).length ∧
      j ∈ chosenPool (tokenize s) four high practiced ∧
      process_sentence pick s four high practiced
        = some (blankJoin (tokenize s) j, ((tokenize s).getD j ([], [])).1) := by
  have hpool := chosenPool_ne_nil (tokenize s) four high practiced hne
  have hmem := hv _ hpool
  refine ⟨pick (chosenPool (tokenize s) four high practiced),
    chosenPool_subset_range _ _ _ _ _ hmem, hmem, ?_⟩
  simp only [process_sentence]
  rw [if_neg (by simp [List.isEmpty_iff, hne])]

theorem claim4_blanking_witness :
    ∃ j : Nat, j < (tokenize "Hi there.".data).length ∧
      j ∈ chosenPool (tokenize "Hi there.".data) [] [] [] ∧
      process_sentence pickHead "Hi there.".data [] [] []
        = some (blankJoin (tokenize "Hi there.".data) j,
            ((tokenize "Hi there.".data).getD j ([], [])).1) :=
  claim4_blanking pickHead "Hi there.".data [] [] [] validPick_head (by decide)

/-- C8: process_sentence fails exactly on sentences with no token, and
with all three word sets empty the candidate pool degrades to the full
index range, so selection succeeds and every token index is a possible
draw. -/
theorem claim8_fallback :
    (∀ (pick : List Nat → Nat) (s : List Char) (four high practiced : List (List Char)),
      process_sentence pick s four high practiced = none ↔ tokenize s = []) ∧
    (∀ s : List Char,
      chosenPool (tokenize s) [] [] [] = List.range (tokenize s).length) := by
  constructor
  · intro pick s four high prac
    simp only [process_sentence]
    by_cases hT : (tokenize s).isEmpty = true
    · simp [hT, List.isEmpty_iff.mp hT]
    · simp only [hT]
      rw [if_neg (by simp [hT])]
      simp only [List.isEmpty_iff] at hT
      simp [hT]
  · intro s
    rfl

/-- C5: in AwaitingInput, free text input whose stripped form equals
the answer exactly and is not one of the command letters appends the
answer to the log, adds it to the in memory practiced set, persists
cursor idx plus one so that loadCursor then returns idx plus one,
stores the blanked sentence and answer in session memory, and advances
to the next sentence with the correct outcome. -/
theorem claim5_correct_answer (numS : Nat) (blanked answer raw jumpRaw : List Char)
    (st : Sess) (hstrip : stripPy raw = answer)
    (hq : pyLower answer ≠ [ 'q' ]) (hp : pyLower answer ≠ [ 'p' ])
    (hg : pyLower answer ≠ [ 'g' ]) :
    step numS blanked answer raw jumpRaw st
      = ({ st with
            idx := st.idx + 1,
            prevS := some blanked,
            prevA := some answer,
            practiced := answer :: st.practiced,
            saved := st.idx + 1,
            log := st.log ++ [ answer ] }, Outcome.correct) ∧
    loadCursor (step numS blanked answer raw jumpRaw st).1 = st.idx + 1 := by
  have h1 : step numS blanked answer raw jumpRaw st
      = ({ st with
            idx := st.idx + 1,
            prevS := some blanked,
            prevA := some answer,
            practiced := answer :: st.practiced,
            saved := st.idx + 1,
            log := st.log ++ [ answer ] }, Outcome.correct) := by
    simp only [step]
    rw [hstrip, if_neg hq, if_neg hp, if_neg hg, if_pos rfl]
  refine ⟨h1, ?_⟩
  rw [h1]
  rfl

theorem claim5_correct_answer_witness :
    step 9 "the _____.".data "cat".data " cat ".data [] ⟨3, none, none, [], 3, []⟩
      = (⟨4, some "the _____.".data, some "cat".data, [ "cat".data ], 4,
          [ "cat".data ]⟩, Outcome.correct) ∧
    loadCursor (step 9 "the _____.".data "cat".data " cat ".data []
        ⟨3, none, none, [], 3, []⟩).1 = 4 :=
  claim5_correct_answer 9 "the _____.".data "cat".data " cat ".data []
    ⟨3, none, none, [], 3, []⟩ (by decide) (by decide) (by decide) (by decide)

/-- C6: in AwaitingInput the g command with target n between one and
the sentence count sets the index to n minus one and leaves the
persisted cursor untouched; a target of zero, a target beyond the
count, and non numeric input are rejected with the whole state
unchanged. -/
theorem claim6_jump_bounds (numS : Nat) (blanked answer raw jumpRaw : List Char)
    (st : Sess) (hg : pyLower (stripPy raw) = [ 'g' ]) :
    (∀ n : Int, parseIntPy jumpRaw = some n → 1 ≤ n → n ≤ (numS : Int) →
      step numS blanked answer raw jumpRaw st
        = ({ st with idx := (n - 1).toNat }, Outcome.jumped (n - 1).toNat)) ∧
    (∀ n : Int, parseIntPy jumpRaw = some n → (n < 1 ∨ (numS : Int) < n) →
      step numS blanked answer raw jumpRaw st = (st, Outcome.jumpErr)) ∧
    (parseIntPy jumpRaw = none →
      step numS blanked answer raw jumpRaw st = (st, Outcome.jumpErr)) := by
  have hq : pyLower (stripPy raw) ≠ [ 'q' ] := by rw [hg]; decide
  have hp : pyLower (stripPy raw) ≠ [ 'p' ] := by rw [hg]; decide
  refine ⟨?_, ?_, ?_⟩
  · intro n hn h1 h2
    simp only [step]
    rw [if_neg hq, if_neg hp, if_pos hg]
    simp only [hn]
    rw [if_pos (by omega : (0:Int) ≤ n - 1 ∧ n - 1 < (numS : Int))]
  · intro n hn hout
    simp only [step]
    rw [if_neg hq, if_neg hp, if_pos hg]
    simp only [hn]
    rw [if_neg (by omega : ¬((0:Int) ≤ n - 1 ∧ n - 1 < (numS : Int)))]
  · intro hn
    simp only [step]
    rw [if_neg hq, if_neg hp, if_pos hg]
    simp only [hn]

theorem claim6_jump_bounds_witness :
    step 2 [] [] "g".data "2".data ⟨0, none, none, [], 0, []⟩
      = (⟨1, none, none, [], 0, []⟩, Outcome.jumped 1) :=
  (claim6_jump_bounds 2 [] [] "g".data "2".data ⟨0, none, none, [], 0, []⟩
    (by decide)).1 2 (by decide) (by decide) (by decide)

/-- C9: over any number of runs on a fixed sentence list, starting
from a fresh installation, the persisted cursor and the session index
never exceed the sentence count, so the value loadCursor returns at
any startup and every value handed to the cursor store lie between
zero and the sentence count. -/
theorem claim9_cursor_invariant (numS : Nat) (st : Sess) (h : Reach numS st) :
    loadCursor st ≤ numS ∧ st.idx ≤ numS := by
  induction h with
  | init => exact ⟨Nat.zero_le _, Nat.zero_le _⟩
  | skip st hr hidx ih =>
    refine ⟨ih.1, ?_⟩
    show st.idx + 1 ≤ numS
    omega
  | input st blanked answer raw jumpRaw hr hidx ih =>
    obtain ⟨h1, h2⟩ := ih
    simp only [loadCursor] at h1 ⊢
    simp only [step]
    split
    · exact ⟨Nat.le_of_lt hidx, h2⟩
    · split
      · exact ⟨h1, h2⟩
      · split
        · split
          · split
            · rename_i n heq hcond
              refine ⟨h1, ?_⟩
              show (n - 1).toNat ≤ numS
              omega
            · exact ⟨h1, h2⟩
          · exact ⟨h1, h2⟩
        · split
          · refine ⟨?_, ?_⟩
            · show st.idx + 1 ≤ numS
              omega
            · show st.idx + 1 ≤ numS
              omega
          · exact ⟨h1, h2⟩
  | restart st hr ih => exact ⟨ih.1, ih.1⟩

theorem claim9_cursor_invariant_witness :
    Reach 2 ⟨0, none, none, [], 0, []⟩ ∧
    (loadCursor ⟨0, none, none, [], 0, []⟩ ≤ 2 ∧
      (⟨0, none, none, [], 0, []⟩ : Sess).idx ≤ 2) :=
  ⟨Reach.init, claim9_cursor_invariant 2 ⟨0, none, none, [], 0, []⟩ Reach.init⟩

/-- C10: input is stripped and the lower cased commands take priority:
a stripped input lowering to q always quits, to p always shows the
previous sentence, to g always jumps or reports a jump error; hence
when the answer itself lowers to one of the command letters, the
correct answer outcome is unreachable for every possible input. -/
theorem claim10_command_precedence (numS : Nat)
    (blanked answer raw jumpRaw : List Char) (st : Sess) :
    (pyLower (stripPy raw) = [ 'q' ] →
      (step numS blanked answer raw jumpRaw st).2 = Outcome.quit) ∧
    (pyLower (stripPy raw) = [ 'p' ] →
      (step numS blanked answer raw jumpRaw st).2 = Outcome.prevShown) ∧
    (pyLower (stripPy raw) = [ 'g' ] →
      (step numS blanked answer raw jumpRaw st).2 = Outcome.jumpErr ∨
      ∃ t : Nat, (step numS blanked answer raw jumpRaw st).2 = Outcome.jumped t) ∧
    ((pyLower answer = [ 'q' ] ∨ pyLower answer = [ 'p' ] ∨ pyLower answer = [ 'g' ]) →
      (step numS blanked answer raw jumpRaw st).2 ≠ Outcome.correct) := by
  refine ⟨?_, ?_, ?_, ?_⟩
  · intro h
    simp only [step]
    rw [if_pos h]
  · intro h
    have hq : pyLower (stripPy raw) ≠ [ 'q' ] := by rw [h]; decide
    simp only [step]
    rw [if_neg hq, if_pos h]
  · intro h
    have hq : pyLower (stripPy raw) ≠ [ 'q' ] := by rw [h]; decide
    have hp : pyLower (stripPy raw) ≠ [ 'p' ] := by rw [h]; decide
    simp only [step]
    rw [if_neg hq, if_neg hp, if_pos h]
    rcases hpar : parseIntPy jumpRaw with _ | n
    · simp only [hpar]
      left
      trivial
    · simp only [hpar]
      split
      · right
        exact ⟨(n - 1).toNat, rfl⟩
      · left
        rfl
  · intro hcmd
    by_cases hq : pyLower (stripPy raw) = [ 'q' ]
    · simp only [step]
      rw [if_pos hq]
      exact fun hcon => Outcome.noConfusion hcon
    · by_cases hp : pyLower (stripPy raw) = [ 'p' ]
      · simp only [step]
        rw [if_neg hq, if_pos hp]
        exact fun hcon => Outcome.noConfusion hcon
      · by_cases hg : pyLower (stripPy raw) = [ 'g' ]
        · simp only [step]
          rw [if_neg hq, if_neg hp, if_pos hg]
          rcases hpar : parseIntPy jumpRaw with _ | n
          · simp only [hpar]
            exact fun hcon => Outcome.noConfusion hcon
          · simp only [hpar]
            split
            · exact fun hcon => Outcome.noConfusion hcon
            · exact fun hcon => Outcome.noConfusion hcon
        · have hune : stripPy raw ≠ answer := by
            intro he
            rcases hcmd with hc | hc | hc
            · exact hq (by rw [he]; exact hc)
            · exact hp (by rw [he]; exact hc)
            · exact hg (by rw [he]; exact hc)
          simp only [step]
          rw [if_neg hq, if_neg hp, if_neg hg, if_neg hune]
          exact fun hcon => Outcome.noConfusion hcon

theorem claim10_command_precedence_witness :
    (step 1 [] "Q".data "q".data [] ⟨0, none, none, [], 0, []⟩).2
      ≠ Outcome.correct :=
  (claim10_command_precedence 1 [] "Q".data "q".data []
    ⟨0, none, none, [], 0, []⟩).2.2.2 (Or.inl (by decide))

/-- C7, counterexample: the lookahead of the split pattern excludes
only terminators, not whitespace, so after the first period of the
text a dot space dot the greedy whitespace run backtracks and a split
happens even though the next non whitespace character is another
terminator; the rule stated in the claim would keep the text whole,
and the length filter does not hide the difference. -/
theorem claim7_counterexample :
    split_sentences "a. .".data = [ "a.".data, " .".data ] ∧
    splitSentencesSpec "a. .".data = [ "a. .".data ] ∧
    filteredSentences "a. .".data = [ "a.".data, " .".data ] := by
  exact ⟨by decide, by decide, by decide⟩

/-- C7, amended: the segmenter splits where a terminator is followed
by any character that is not a terminator, whitespace included via
backtracking of the greedy run; only whitespace is discarded between
fragments, so the fragments in order, interleaved with the dropped
whitespace runs, reconstruct the text exactly, and the length filter
keeps a subsequence: nothing is reordered or merged. -/
theorem claim7_segmenter (s : List Char) :
    ∃ seps : List (List Char),
      seps.length + 1 = (split_sentences s).length ∧
      (∀ w ∈ seps, w.all isSpacePy = true) ∧
      joinSeps (split_sentences s) seps = s ∧
      (filteredSentences s).Sublist (split_sentences s) := by
  obtain ⟨seps, h1, h2, h3⟩ := splitF_reconstruct s.length s false le_rfl
  exact ⟨seps, h1, h2, h3, List.filter_sublist _⟩

end Judu
